import Mathlib

/-!
Verification of the saferm trash-management subsystem.

This file shallowly embeds the core of the saferm repository:
the Managed Holding Area backend (src/trash/managed.rs), the Platform
Trash backend's Linux restore path (src/trash/os_trash.rs), and the
delete/restore orchestrator (src/ops.rs).

The filesystem is modelled as a flat association list from absolute path
strings to nodes; a node is a whole file, directory tree, or symlink, so a
rename moves the entire tree at once (matching the atomic-rename semantics
the source relies on). All string manipulation is implemented structurally
over lists of characters so that concrete scenarios evaluate by rfl.
-/

set_option maxRecDepth 10000

namespace SafeRm

/-! ## String helpers (structural over character lists) -/

/-- Characters of a string. -/
def chars (s : String) : List Char := s.data

/-- Build a string from characters. -/
def ofChars (cs : List Char) : String := ⟨cs⟩

/-- Split a character list on a separator character.
Mirrors Rust's str::split semantics: separators delimit (possibly empty)
fields. -/
def splitCh (sep : Char) : List Char → List (List Char)
  | [] => [[]]
  | c :: rest =>
    let r := splitCh sep rest
    if c = sep then
      [] :: r
    else
      match r with
      | [] => [[c]]
      | f :: fs => (c :: f) :: fs

/-- Drop a literal from the front of a character list if it is a prefix,
mirroring Rust's str::strip_prefix. -/
def dropPre : List Char → List Char → Option (List Char)
  | [], s => some s
  | _ :: _, [] => none
  | p :: ps, c :: cs => if p = c then dropPre ps cs else none

/-- Substring test, mirroring Rust's str::contains with a literal pattern. -/
def infixOfB (pat : List Char) (hay : List Char) : Bool :=
  hay.tails.any (fun t => pat.isPrefixOf t)

/-- Substring containment on strings: does hay contain pat. -/
def containsSub (hay pat : String) : Bool := infixOfB (chars pat) (chars hay)

/-- Split a string at the LAST occurrence of a separator character.
Returns (before, after), or none when the separator does not occur. -/
def splitLastCh (sep : Char) (s : String) : Option (String × String) :=
  let rev := (chars s).reverse
  let p := rev.span (fun c => ¬ c = sep)
  if p.2.isEmpty then none
  else some (ofChars (p.2.drop 1).reverse, ofChars p.1.reverse)

/-- Rust Path::file_name on our string paths: the last nonempty slash
separated component, if any. -/
def fileNameOpt (p : String) : Option String :=
  (((splitCh '/' (chars p)).filter (fun c => !c.isEmpty)).map ofChars).getLast?

/-- Rust uses path.file_name().and_then(to_str).unwrap_or("unknown") when
building the stored name in ManagedTrash::trash. -/
def fileNameD (p : String) : String := (fileNameOpt p).getD "unknown"

/-- Rust Path::parent rendered as a string, with Path::new("") for a bare
file name; callers immediately join a file name onto the result. -/
def dirOf (p : String) : String :=
  match splitLastCh '/' p with
  | none => ""
  | some (b, _) => if b = "" then "/" else b

/-- Rust Path::join of a directory string and a file name. -/
def joinPath (d name : String) : String :=
  if d = "" then name
  else if d = "/" then "/" ++ name
  else d ++ "/" ++ name

/-- Rust Path::file_stem and Path::extension applied to a file NAME:
split at the last dot, except that a leading dot (hidden file) does not
start an extension. -/
def stemExt (name : String) : String × Option String :=
  match splitLastCh '.' name with
  | none => (name, none)
  | some (b, a) => if b = "" then (name, none) else (b, some a)

/-! ## Filesystem model -/

/-- A filesystem object: a file with contents, a directory tree, or a
symbolic link to another path. Renames move a whole node, so directory
structure and contents are preserved recursively by construction. -/
inductive Node where
  | file (content : String)
  | dir (entries : List (String × Node))
  | symlink (target : String)

/-- A flat store: association list from a key (an absolute path for the
external filesystem, a file name for the payload and info stores) to a
value. The first binding for a key wins. -/
def lookupA {α : Type} : List (String × α) → String → Option α
  | [], _ => none
  | (k', v) :: rest, k => if k' = k then some v else lookupA rest k

/-- Remove every binding of a key. -/
def eraseA {α : Type} : List (String × α) → String → List (String × α)
  | [], _ => []
  | e :: rest, k => if e.1 = k then eraseA rest k else e :: eraseA rest k

/-- Bind a key, replacing any previous binding: this models the overwriting
behaviour of rename(2) onto an existing destination. -/
def insertA {α : Type} (l : List (String × α)) (k : String) (v : α) : List (String × α) :=
  (k, v) :: eraseA l k

/-- The external filesystem. -/
abbrev Fs := List (String × Node)

/-- std::fs rename: move the node bound at src to dst (overwriting dst, as
rename(2) does). A rename of a missing source leaves the store unchanged;
the embedding only invokes it on existing sources. -/
def renameFs (fs : Fs) (src dst : String) : Fs :=
  match lookupA fs src with
  | none => fs
  | some n => insertA (eraseA fs src) dst n

/-- Path::is_symlink on the model. -/
def isSymlinkAt (fs : Fs) (p : String) : Bool :=
  match lookupA fs p with
  | some (Node.symlink _) => true
  | _ => false

/-- Path::exists on the model. -/
def existsAt (fs : Fs) (p : String) : Bool := (lookupA fs p).isSome

/-- Path::canonicalize: resolves and verifies existence. Keys of the model
filesystem are already absolute and symlink-free, so canonicalization is
the identity on existing paths and an error otherwise. -/
def canonicalizeAt (fs : Fs) (p : String) : Option String :=
  if existsAt fs p then some p else none

/-- std::fs::symlink_metadata(dest).is_dir(): metadata of the path itself
without following a final symlink; errors (none) when the path is absent. -/
def symlinkMetaIsDir (fs : Fs) (p : String) : Option Bool :=
  match lookupA fs p with
  | some (Node.dir _) => some true
  | some _ => some false
  | none => none

/-- std::fs::remove_file: unlinks a file or a symbolic link (only the link
itself, never its target); fails on directories or missing paths. -/
def removeFileAt (fs : Fs) (p : String) : Option Fs :=
  match lookupA fs p with
  | some (Node.dir _) => none
  | some _ => some (eraseA fs p)
  | none => none

/-- std::fs::remove_dir_all: recursively deletes a real directory; fails on
anything else (including a symlink to a directory). -/
def removeDirAllAt (fs : Fs) (p : String) : Option Fs :=
  match lookupA fs p with
  | some (Node.dir _) => some (eraseA fs p)
  | _ => none

/-! ## Trashinfo records -/

/-- Digits of a character-list numeral, or none when empty/non-digit,
mirroring the integer parsing inside chrono's strict "%Y-%m-%dT%H:%M:%S". -/
def digitsToNat : List Char → Option Nat
  | [] => none
  | cs => go cs 0
where
  go : List Char → Nat → Option Nat
  | [], acc => some acc
  | c :: rest, acc =>
    if c.isDigit then go rest (acc * 10 + (c.toNat - '0'.toNat)) else none

/-- Days since 1970-01-01 of a civil date (Hinnant's algorithm), used to
turn a parsed DeletionDate into a unix timestamp. -/
def daysFromCivil (y : Int) (m d : Nat) : Int :=
  let y' : Int := if m ≤ 2 then y - 1 else y
  let era : Int := (if 0 ≤ y' then y' else y' - 399) / 400
  let yoe : Int := y' - era * 400
  let mp : Int := ((m : Int) + 9) % 12
  let doy : Int := (153 * mp + 2) / 5 + (d : Int) - 1
  let doe : Int := yoe * 365 + yoe / 4 - yoe / 100 + doy
  era * 146097 + doe - 719468

/-- chrono::NaiveDateTime::parse_from_str(d, "%Y-%m-%dT%H:%M:%S") followed
by and_local_timezone(Local) and .timestamp(). The model's local timezone
is UTC. -/
def parseDate (s : String) : Option Int :=
  match splitCh 'T' (chars s) with
  | [ds, ts] =>
    (match splitCh '-' ds, splitCh ':' ts with
     | [ys, ms, dcs], [hs, mis, ss] =>
       (match digitsToNat ys, digitsToNat ms, digitsToNat dcs,
              digitsToNat hs, digitsToNat mis, digitsToNat ss with
        | some y, some mo, some da, some h, some mi, some sec =>
          if 1 ≤ mo ∧ mo ≤ 12 ∧ 1 ≤ da ∧ da ≤ 31 ∧ h < 24 ∧ mi < 60 ∧ sec < 60 then
            some (daysFromCivil (y : Int) mo da * 86400
              + ((h * 3600 + mi * 60 + sec : Nat) : Int))
          else none
        | _, _, _, _, _, _ => none)
     | _, _ => none)
  | _ => none

/-- Content written by ManagedTrash::write_trashinfo. -/
def mkTrashinfo (originalPath now : String) : String :=
  "[Trash Info]\nPath=" ++ originalPath ++ "\nDeletionDate=" ++ now ++ "\n"

/-- The lines of a trashinfo file, as character lists. -/
def linesOf (content : String) : List (List Char) := splitCh '\n' (chars content)

/-- Fold one line into the (path, date) accumulator, mirroring the body of
the for loop in managed.rs parse_trashinfo: a Path= line always updates the
path (last one wins); a DeletionDate= line updates the date only when it
parses in the strict format; every other line is ignored. -/
def trashinfoLineStep (acc : Option String × Option Int) (line : List Char) :
    Option String × Option Int :=
  match dropPre (chars "Path=") line with
  | some p => (some (ofChars p), acc.2)
  | none =>
    match dropPre (chars "DeletionDate=") line with
    | some d =>
      (match parseDate (ofChars d) with
       | some ts => (acc.1, some ts)
       | none => acc)
    | none => acc

/-- parse_trashinfo in managed.rs: returns (original path, optional unix
deletion time); errors (none) when no Path= line is present. -/
def parseTrashinfo (content : String) : Option (String × Option Int) :=
  match (linesOf content).foldl trashinfoLineStep (none, none) with
  | (some p, d) => some (p, d)
  | (none, _) => none

/-! ## Error taxonomy (section 7 of the design) -/

inductive Err where
  | ioError
  | notFound
  | moveFailed
  | backendFailed
  | nonInteractive
  | isDirectory
  | restoreConflict
  | usage
deriving DecidableEq, Repr

end SafeRm

namespace SafeRm

/-! ## Common trash-handler shapes (src/trash/mod.rs) -/

/-- RestorableItem from trash/mod.rs; OsString/PathBuf fields are modelled
as strings. -/
structure RestorableItem where
  id : String
  original_path : String
  display_name : String
  deleted_at : Option Int

/-! ## Managed Holding Area backend (src/trash/managed.rs) -/

/-- State of the managed backend together with the external filesystem:
ext is the world outside the trash, files the payload store (keyed by
stored name), info the info store (stored name to raw trashinfo text;
the on-disk file is named stored-name.trashinfo). -/
structure MState where
  ext : Fs
  files : List (String × Node)
  info : List (String × String)

/-- Fault injection for ManagedTrash::trash: whether the symlink unlink
fails and whether the rename into the payload store fails. -/
structure MFaults where
  unlinkFails : Bool
  renameFails : Bool

def noMFaults : MFaults := ⟨false, false⟩

/-- Fault injection for ManagedTrash::restore_to: whether the rename to the
destination fails and whether the best-effort info removal fails. -/
structure RFaults where
  renameFails : Bool
  infoRemoveFails : Bool

def noRFaults : RFaults := ⟨false, false⟩

/-- One probe candidate of ManagedTrash::unique_name: the integer suffix is
inserted before the extension when there is one. -/
def uniqCand (stem : String) (ext : Option String) (i : Nat) : String :=
  match ext with
  | some e => stem ++ "." ++ Nat.repr i ++ "." ++ e
  | none => stem ++ "." ++ Nat.repr i

/-- A sequential probing loop shared by the three unbounded name searches
of the source (unique_name, the eviction name, generate_rename_path):
return the first candidate from index i on that is free. The source loops
are unbounded; the model carries fuel one larger than the relevant store,
enough to reach a free name whenever one exists in that range, and falls
back to the current candidate when the fuel runs out. -/
def probeLoop (free : String → Bool) (cand : Nat → String) : Nat → Nat → String
  | 0, i => cand i
  | fuel + 1, i => if free (cand i) then cand i else probeLoop free cand fuel (i + 1)

/-- ManagedTrash::unique_name: the original name when free in the payload
store, otherwise the first free candidate name.1.ext, name.2.ext, ... -/
def uniqueName (files : List (String × Node)) (originalName : String) : String :=
  if (lookupA files originalName).isNone then originalName
  else
    let se := stemExt originalName
    probeLoop (fun c => (lookupA files c).isNone) (uniqCand se.1 se.2) (files.length + 1) 1

/-- ManagedTrash::trash. now is the formatted local timestamp written into
the trashinfo record. Returns the state as mutated so far and an optional
error. -/
def mtrash (flt : MFaults) (s : MState) (p now : String) : MState × Option Err :=
  if isSymlinkAt s.ext p then
    match removeFileAt s.ext p with
    | some ext' => if flt.unlinkFails then (s, some .ioError) else ({ s with ext := ext' }, none)
    | none => (s, some .ioError)
  else
    match canonicalizeAt s.ext p with
    | none => (s, some .ioError)
    | some canon =>
      let originalName := fileNameD p
      let trashName := uniqueName s.files originalName
      if flt.renameFails then (s, some .moveFailed)
      else
        match lookupA s.ext canon with
        | none => (s, some .ioError)
        | some payload =>
          let s1 : MState :=
            { s with ext := eraseA s.ext canon, files := insertA s.files trashName payload }
          ({ s1 with info := insertA s1.info trashName (mkTrashinfo canon now) }, none)

/-- The loop body of ManagedTrash::list_restorable over the info store:
skip a record whose payload no longer exists under the stored name, skip a
record that fails to parse, apply the optional substring filter to the
stored name and the original path, and build the restorable item. -/
def mlistGo (files : List (String × Node)) (filter : Option String) :
    List (String × String) → List RestorableItem
  | [] => []
  | (trashName, content) :: rest =>
    let tail := mlistGo files filter rest
    if (lookupA files trashName).isSome then
      match parseTrashinfo content with
      | none => tail
      | some (originalPath, deletedAt) =>
        let keep :=
          match filter with
          | none => true
          | some pat => containsSub trashName pat || containsSub originalPath pat
        if keep then
          { id := trashName
            original_path := originalPath
            display_name := (fileNameOpt originalPath).getD trashName
            deleted_at := deletedAt } :: tail
        else tail
    else tail

/-- ManagedTrash::list_restorable. -/
def mlist (s : MState) (filter : Option String) : List RestorableItem :=
  mlistGo s.files filter s.info

/-- ManagedTrash::restore_to: NotFound when no payload is stored under the
id; MoveFailed when the rename to the destination fails (state untouched);
on success the payload moves to the destination and the info record is
removed best-effort (a removal failure is ignored). -/
def mrestore (flt : RFaults) (s : MState) (id dest : String) : MState × Option Err :=
  match lookupA s.files id with
  | none => (s, some .notFound)
  | some payload =>
    if flt.renameFails then (s, some .moveFailed)
    else
      let s1 : MState :=
        { s with files := eraseA s.files id, ext := insertA s.ext dest payload }
      if flt.infoRemoveFails then (s1, none)
      else ({ s1 with info := eraseA s1.info id }, none)

end SafeRm

namespace SafeRm

/-! ## Platform Trash backend, Linux os_limited branch (src/trash/os_trash.rs) -/

/-- A trash::TrashItem as used by the os_limited API: identifier, file
name, original path, deletion time, together with the trashed content the
platform trash holds for it. -/
structure TrashItem where
  id : String
  name : String
  originalPath : String
  timeDeleted : Int
  node : Node

/-- State for the platform backend: the external filesystem and the
contents of the platform trash. -/
structure OState where
  ext : Fs
  trashItems : List TrashItem

/-- Fault injection for OsTrash: whether trash::delete fails, whether
trash::os_limited::restore_all fails (and how), and whether the
post-restore rename to the destination fails. -/
structure OFaults where
  deleteFails : Bool
  restoreCollision : Bool
  restoreOther : Bool
  moveFails : Bool

def noOFaults : OFaults := ⟨false, false, false, false⟩

/-- OsTrash::trash on the Linux branch: symlinks are unlinked directly;
anything else is handed to trash::delete, which on success moves the node
into the platform trash under a platform-chosen id and name. -/
def osTrash (flt : OFaults) (s : OState) (p : String) (freshId freshName : String)
    (now : Int) : OState × Option Err :=
  if isSymlinkAt s.ext p then
    match removeFileAt s.ext p with
    | some ext' => if flt.deleteFails then (s, some .ioError) else ({ s with ext := ext' }, none)
    | none => (s, some .ioError)
  else if flt.deleteFails then (s, some .backendFailed)
  else
    match lookupA s.ext p with
    | none => (s, some .backendFailed)
    | some n =>
      ({ ext := eraseA s.ext p
         trashItems := { id := freshId, name := freshName, originalPath := p,
                         timeDeleted := now, node := n } :: s.trashItems }, none)

/-- The first eviction candidate in OsTrash::restore_to:
parent.join(".saferm-evict-{pid}-{basename}"). -/
def evictCand0 (pidStr : String) (orig : String) : String :=
  joinPath (dirOf orig) (".saferm-evict-" ++ pidStr ++ "-" ++ ((fileNameOpt orig).getD ""))

/-- A counter eviction candidate:
parent.join(".saferm-evict-{pid}-{counter}-{basename}"). -/
def evictCandN (pidStr : String) (orig : String) (counter : Nat) : String :=
  joinPath (dirOf orig)
    (".saferm-evict-" ++ pidStr ++ "-" ++ Nat.repr counter ++ "-" ++ ((fileNameOpt orig).getD ""))

/-- The unique eviction name chosen by OsTrash::restore_to: the plain
candidate when free, otherwise the first free counter candidate (the
while tmp.exists() loop). -/
def evictName (fs : Fs) (pidStr orig : String) : String :=
  let c0 := evictCand0 pidStr orig
  if existsAt fs c0 then
    probeLoop (fun c => !existsAt fs c) (evictCandN pidStr orig) (fs.length + 1) 1
  else c0

/-- OsTrash::restore_to on the Linux branch: find the item by id; when the
destination differs from the original path and the original path is
occupied, evict the occupant aside; run the native restore (which lands at
the original path); move the result to the destination when it differs;
and on every failure after the eviction, rename the evicted file back
before returning the error. -/
def osRestoreTo (flt : OFaults) (s : OState) (pidStr : String) (itemId dest : String) :
    OState × Option Err :=
  match s.trashItems.filter (fun i => i.id = itemId) with
  | [] => (s, some .notFound)
  | item :: _ =>
    let orig := item.originalPath
    let evict : Option String :=
      if ¬ dest = orig ∧ existsAt s.ext orig then some (evictName s.ext pidStr orig) else none
    let ext1 : Fs :=
      match evict with
      | some tmp => renameFs s.ext orig tmp
      | none => s.ext
    let rollback : Fs → Fs := fun fs =>
      match evict with
      | some tmp => renameFs fs tmp orig
      | none => fs
    if flt.restoreCollision then ({ s with ext := rollback ext1 }, some .restoreConflict)
    else if flt.restoreOther then ({ s with ext := rollback ext1 }, some .backendFailed)
    else
      let ext2 : Fs := insertA ext1 orig item.node
      let items2 := s.trashItems.filter (fun i => ¬ i.id = itemId)
      if ¬ dest = orig then
        if flt.moveFails then
          ({ ext := rollback ext2, trashItems := items2 }, some .moveFailed)
        else
          ({ ext := rollback (renameFs ext2 orig dest), trashItems := items2 }, none)
      else
        ({ ext := rollback ext2, trashItems := items2 }, none)

end SafeRm

namespace SafeRm

/-! ## Orchestrator (src/ops.rs) -/

/-- The Prompter capability (src/prompt.rs), modelled as deterministic
response functions: confirm(message), select(message, options, default)
and multi_select(message, options, defaults). -/
structure Prompter where
  confirm : String → Bool
  select : String → List String → Nat → Nat
  multiSelect : String → List String → List Bool → List Nat

/-- CLI flags (src/cli.rs). -/
structure Cli where
  targets : List String
  recursive : Bool
  force : Bool
  interactive : Bool
  dir : Bool
  verbose : Bool
  cleanup : Bool
  restoreFlag : Bool

/-- Zero padded two-digit rendering for timestamp display. -/
def pad2 (n : Nat) : String := if n < 10 then "0" ++ Nat.repr n else Nat.repr n

/-- Civil date of a day count since 1970-01-01 (Hinnant's algorithm),
for formatting a deletion timestamp in the restore selection list. -/
def civilFromDays (z0 : Int) : Int × Nat × Nat :=
  let z := z0 + 719468
  let era : Int := (if 0 ≤ z then z else z - 146096) / 146097
  let doe : Int := z - era * 146097
  let yoe : Int := (doe - doe / 1460 + doe / 36524 - doe / 146096) / 365
  let y : Int := yoe + era * 400
  let doy : Int := doe - (365 * yoe + yoe / 4 - yoe / 100)
  let mp : Int := (5 * doy + 2) / 153
  let d : Int := doy - (153 * mp + 2) / 5 + 1
  let m : Int := mp + (if mp < 10 then 3 else -9)
  ((if m ≤ 2 then y + 1 else y), m.toNat, d.toNat)

/-- chrono DateTime::from_timestamp(ts, 0).format("%Y-%m-%d %H:%M:%S"). -/
def formatTs (ts : Int) : String :=
  let days := ts.ediv 86400
  let secs := (ts.emod 86400).toNat
  let ymd := civilFromDays days
  Int.repr ymd.1 ++ "-" ++ pad2 ymd.2.1 ++ "-" ++ pad2 ymd.2.2 ++ " "
    ++ pad2 (secs / 3600) ++ ":" ++ pad2 (secs % 3600 / 60) ++ ":" ++ pad2 (secs % 60)

/-- One line of the restore selection list:
format!("{} ({})", original_path, date or "unknown"). -/
def displayLine (item : RestorableItem) : String :=
  let dateStr := match item.deleted_at with
    | some ts => formatTs ts
    | none => "unknown"
  item.original_path ++ " (" ++ dateStr ++ ")"

/-- Stem and extension used by generate_rename_path:
path.file_stem().and_then(to_str).unwrap_or("file") and path.extension(). -/
def renameStemExt (p : String) : String × Option String :=
  match fileNameOpt p with
  | some n => stemExt n
  | none => ("file", none)

/-- The i-th candidate of generate_rename_path: .restored for i = 1, then
.restored2, .restored3, ..., inserted before the extension when there is
one, joined onto the destination's parent directory. -/
def renameCand (p : String) (i : Nat) : String :=
  let se := renameStemExt p
  let suffix := if i = 1 then "" else Nat.repr i
  let name :=
    match se.2 with
    | some e => se.1 ++ ".restored" ++ suffix ++ "." ++ e
    | none => se.1 ++ ".restored" ++ suffix
  joinPath (dirOf p) name

/-- generate_rename_path in ops.rs: the first candidate (for i in 1u64..)
that does not exist. -/
def generateRenamePath (fs : Fs) (p : String) : String :=
  probeLoop (fun c => !existsAt fs c) (renameCand p) (fs.length + 1) 1

/-- The three conflict options offered by run_restore: overwrite, skip, and
rename-to the generated path. -/
def restoreConflictOptions (renameLabel : String) : List String :=
  ["restore_conflict_overwrite", "restore_conflict_skip", renameLabel]

/-- Shared tail of the per-item restore: invoke the backend restore_to;
a per-item failure clears the overall flag and processing continues. -/
def restoreStep (rflt : RFaults) (s : MState) (ok : Bool) (item : RestorableItem)
    (dest : String) : (MState × Bool) × Option Err :=
  match mrestore rflt s item.id dest with
  | (s', none) => ((s', ok), none)
  | (s', some _) => ((s', false), none)

/-- The body of the per-item loop of run_restore, instantiated with the
managed backend. The Option Err component models an abort of the whole
restore run through the ? operator (metadata/removal failures inside the
overwrite branch); per-item restore failures instead clear the flag and
continue. -/
def processItem (rflt : RFaults) (cli : Cli) (pr : Prompter) (isTty : Bool)
    (st : MState × Bool) (item : RestorableItem) : (MState × Bool) × Option Err :=
  let s := st.1
  let ok := st.2
  let dest := item.original_path
  if existsAt s.ext dest then
    if ¬ isTty ∧ cli.force then ((s, ok), none)
    else
      let renameDest := generateRenamePath s.ext dest
      let options := restoreConflictOptions ("restore_conflict_rename:" ++ renameDest)
      let choice := pr.select ("restore_conflict:" ++ item.display_name) options 1
      if choice = 0 then
        match symlinkMetaIsDir s.ext dest with
        | none => ((s, ok), some .ioError)
        | some isDir =>
          match (if isDir then removeDirAllAt s.ext dest else removeFileAt s.ext dest) with
          | none => ((s, ok), some .ioError)
          | some ext' => restoreStep rflt { s with ext := ext' } ok item dest
      else if choice = 1 then ((s, ok), none)
      else restoreStep rflt s ok item renameDest
  else restoreStep rflt s ok item dest

/-- The per-item loop of run_restore over the selected items. -/
def processItems (rflt : RFaults) (cli : Cli) (pr : Prompter) (isTty : Bool) :
    List RestorableItem → MState → Bool → MState × Except Err Bool
  | [], s, ok => (s, .ok ok)
  | it :: rest, s, ok =>
    match processItem rflt cli pr isTty (s, ok) it with
    | (st', none) => processItems rflt cli pr isTty rest st'.1 st'.2
    | (st', some e) => (st'.1, .error e)

/-- Placeholder item for the (never exercised) out-of-range index access
items[idx]; the source would panic there. -/
def dummyItem : RestorableItem := ⟨"", "", "", none⟩

/-- run_restore in ops.rs, instantiated with the managed backend. Returns
the final state and either an abort error or the overall success flag. -/
def runRestore (rflt : RFaults) (cli : Cli) (pr : Prompter) (isTty : Bool)
    (s : MState) : MState × Except Err Bool :=
  if 1 < cli.targets.length then (s, .error .usage)
  else
    let filter := cli.targets.head?
    let items := mlist s filter
    if items.isEmpty then (s, .ok true)
    else
      let displayOptions := items.map displayLine
      if isTty then
        let sel := pr.multiSelect "restore_select" displayOptions
          (List.replicate items.length false)
        if sel.isEmpty then (s, .ok true)
        else processItems rflt cli pr isTty (sel.map (fun i => items.getD i dummyItem)) s true
      else if cli.force then
        processItems rflt cli pr isTty
          ((List.range items.length).map (fun i => items.getD i dummyItem)) s true
      else (s, .error .nonInteractive)

/-- process_target in ops.rs (the per-target delete flow), instantiated
with the managed backend. -/
def processTarget (mflt : MFaults) (cli : Cli) (pr : Prompter) (isTty : Bool)
    (s : MState) (target now : String) : MState × Option Err :=
  if ¬ existsAt s.ext target ∧ ¬ isSymlinkAt s.ext target then
    if cli.force then (s, none) else (s, some .notFound)
  else
    let realDir :=
      match lookupA s.ext target with
      | some (Node.dir _) => true
      | _ => false
    let dirEntries :=
      match lookupA s.ext target with
      | some (Node.dir es) => es
      | _ => []
    if realDir && !cli.recursive && !cli.dir then (s, some .isDirectory)
    else if realDir && cli.dir && !cli.recursive && !dirEntries.isEmpty then
      (s, some .isDirectory)
    else if !isTty && !cli.force then (s, some .nonInteractive)
    else
      if isTty then
        let msg := if realDir then "confirm_trash_dir:" ++ target else "confirm_trash:" ++ target
        if pr.confirm msg then mtrash mflt s target now else (s, none)
      else mtrash mflt s target now

end SafeRm

namespace SafeRm

/-! ## Store lemmas -/

theorem lookupA_insertA_self {α : Type} (l : List (String × α)) (k : String) (v : α) :
    lookupA (insertA l k v) k = some v := by
  simp [insertA, lookupA]

theorem lookupA_eraseA_ne {α : Type} (l : List (String × α)) (k k' : String)
    (h : ¬ k = k') : lookupA (eraseA l k) k' = lookupA l k' := by
  induction l with
  | nil => simp [eraseA, lookupA]
  | cons e rest ih =>
    have h3 : ¬ k' = k := fun hh => h hh.symm
    by_cases he : e.1 = k
    · have h2 : ¬ e.1 = k' := by rw [he]; exact h
      simp [eraseA, lookupA, he, h2, ih, h]
    · by_cases hek' : e.1 = k'
      · simp [eraseA, lookupA, he, hek', h3]
      · simp [eraseA, lookupA, he, hek', ih]

theorem lookupA_insertA_ne {α : Type} (l : List (String × α)) (k k' : String) (v : α)
    (h : ¬ k = k') : lookupA (insertA l k v) k' = lookupA l k' := by
  simp only [insertA, lookupA, if_neg h]
  exact lookupA_eraseA_ne l k k' h

theorem lookupA_eraseA_self {α : Type} (l : List (String × α)) (k : String) :
    lookupA (eraseA l k) k = none := by
  induction l with
  | nil => simp [eraseA, lookupA]
  | cons e rest ih =>
    by_cases he : e.1 = k
    · simp [eraseA, he, ih]
    · simp [eraseA, lookupA, he, ih]

theorem eraseA_of_absent {α : Type} (l : List (String × α)) (k : String)
    (h : lookupA l k = none) : eraseA l k = l := by
  induction l with
  | nil => rfl
  | cons e rest ih =>
    by_cases he : e.1 = k
    · simp [lookupA, he] at h
    · simp only [lookupA, if_neg he] at h
      simp [eraseA, he, ih h]

theorem eraseA_insertA_self {α : Type} (l : List (String × α)) (k : String) (v : α) :
    eraseA (insertA l k v) k = eraseA l k := by
  induction l with
  | nil => simp [insertA, eraseA]
  | cons e rest ih =>
    by_cases he : e.1 = k
    · simpa [insertA, eraseA, he] using ih
    · simpa [insertA, eraseA, he] using ih

/-! ## Probe loop lemmas -/

theorem probeLoop_spec (free : String → Bool) (cand : Nat → String) :
    ∀ fuel i, (∃ j, i ≤ j ∧ j < i + fuel ∧ free (cand j) = true) →
      ∃ m, i ≤ m ∧ free (cand m) = true ∧ probeLoop free cand fuel i = cand m ∧
        ∀ k, i ≤ k → k < m → free (cand k) = false := by
  intro fuel
  induction fuel with
  | zero =>
    intro i ⟨j, hij, hj, _⟩
    omega
  | succ fuel ih =>
    intro i ⟨j, hij, hj, hfree⟩
    by_cases hi : free (cand i) = true
    · exact ⟨i, le_refl i, hi, by simp [probeLoop, hi], fun k hk hk' => absurd hk' (by omega)⟩
    · have hji : ¬ j = i := fun h => hi (h ▸ hfree)
      obtain ⟨m, him, hmfree, heq, hmin⟩ :=
        ih (i + 1) ⟨j, by omega, by omega, hfree⟩
      refine ⟨m, by omega, hmfree, ?_, ?_⟩
      · simpa [probeLoop, hi] using heq
      · intro k hk hk'
        rcases Nat.eq_or_lt_of_le hk with h | h
        · simpa [← h] using Bool.not_eq_true _ |>.mp hi
        · exact hmin k h hk'

end SafeRm

namespace SafeRm

/-! ## String lemmas -/

theorem chars_ofChars (cs : List Char) : chars (ofChars cs) = cs := rfl

theorem ofChars_chars (s : String) : ofChars (chars s) = s := rfl

theorem chars_append (a b : String) : chars (a ++ b) = chars a ++ chars b := by
  cases a; cases b; rfl

theorem splitCh_ne_nil (sep : Char) (cs : List Char) : splitCh sep cs ≠ [] := by
  cases cs with
  | nil => simp [splitCh]
  | cons c rest =>
    simp only [splitCh]
    split
    · simp
    · split <;> simp

theorem splitCh_append_sep (sep : Char) (xs ys : List Char) :
    splitCh sep (xs ++ sep :: ys) = splitCh sep xs ++ splitCh sep ys := by
  induction xs with
  | nil => simp [splitCh]
  | cons c rest ih =>
    by_cases hc : c = sep
    · simp [splitCh, hc, ih]
    · obtain ⟨f, fs, hf⟩ : ∃ f fs, splitCh sep rest = f :: fs := by
        cases h : splitCh sep rest with
        | nil => exact absurd h (splitCh_ne_nil sep rest)
        | cons f fs => exact ⟨f, fs, rfl⟩
      simp [splitCh, hc, ih, hf]

theorem splitCh_of_not_mem (sep : Char) (cs : List Char) (h : sep ∉ cs) :
    splitCh sep cs = [cs] := by
  induction cs with
  | nil => rfl
  | cons c rest ih =>
    have hc : ¬ c = sep := fun hh => h (hh ▸ List.mem_cons_self c rest)
    have hrest : sep ∉ rest := fun hh => h (List.mem_cons_of_mem c hh)
    simp [splitCh, hc, ih hrest]

theorem not_mem_of_mem_splitCh (sep : Char) :
    ∀ (cs part : List Char), part ∈ splitCh sep cs → sep ∉ part := by
  intro cs
  induction cs with
  | nil =>
    intro part h
    simp [splitCh] at h
    simp [h]
  | cons c rest ih =>
    intro part h
    by_cases hc : c = sep
    · simp only [splitCh, if_pos hc] at h
      rcases List.mem_cons.mp h with h1 | h2
      · simp [h1]
      · exact ih part h2
    · obtain ⟨f, fs, hf⟩ : ∃ f fs, splitCh sep rest = f :: fs := by
        cases hsp : splitCh sep rest with
        | nil => exact absurd hsp (splitCh_ne_nil sep rest)
        | cons f fs => exact ⟨f, fs, rfl⟩
      simp only [splitCh, if_neg hc, hf] at h
      rcases List.mem_cons.mp h with h1 | h2
      · subst h1
        intro hmem
        rcases List.mem_cons.mp hmem with h3 | h4
        · exact hc h3.symm
        · exact ih f (hf ▸ List.mem_cons_self f fs) h4
      · exact ih part (hf ▸ List.mem_cons_of_mem f h2)

theorem fileNameOpt_joinPath (d name : String) (h1 : chars name ≠ [])
    (h2 : '/' ∉ chars name) : fileNameOpt (joinPath d name) = some name := by
  have hsingle : splitCh '/' (chars name) = [chars name] := splitCh_of_not_mem _ _ h2
  have hne : (chars name).isEmpty = false := by
    cases h : chars name with
    | nil => exact absurd h h1
    | cons a l => rfl
  by_cases hd0 : d = ""
  · simp [joinPath, hd0, fileNameOpt, hsingle, hne, ofChars_chars]
  · by_cases hd1 : d = "/"
    · have : chars ("/" ++ name) = '/' :: chars name := by
        rw [chars_append]; rfl
      simp [joinPath, hd0, hd1, fileNameOpt, this, splitCh, hsingle, hne, ofChars_chars]
    · have hch : chars (d ++ "/" ++ name) = chars d ++ '/' :: chars name := by
        rw [chars_append, chars_append, List.append_assoc,
          show chars "/" = ['/'] from rfl]
        rfl
      simp only [joinPath, if_neg hd0, if_neg hd1, fileNameOpt, hch,
        splitCh_append_sep, hsingle, List.filter_append, List.map_append]
      simp [hne, ofChars_chars]

theorem mem_of_getLastQ {α : Type} {l : List α} {a : α} (h : l.getLast? = some a) :
    a ∈ l := by
  obtain ⟨hne, heq⟩ := List.mem_getLast?_eq_getLast (show a ∈ l.getLast? from h)
  exact heq ▸ List.getLast_mem hne

theorem fileNameOpt_no_slash (p b : String) (h : fileNameOpt p = some b) :
    '/' ∉ chars b := by
  simp only [fileNameOpt] at h
  have hmem : b ∈ ((splitCh '/' (chars p)).filter (fun c => !c.isEmpty)).map ofChars :=
    mem_of_getLastQ h
  obtain ⟨cs, hcs, hb⟩ := List.mem_map.mp hmem
  have hcs' : cs ∈ splitCh '/' (chars p) := List.mem_of_mem_filter hcs
  have := not_mem_of_mem_splitCh '/' (chars p) cs hcs'
  rw [← hb]
  simpa [chars_ofChars] using this

end SafeRm

namespace SafeRm

/-! ## Decimal rendering facts -/

theorem digitChar_ne_slash (n : Nat) : Nat.digitChar n ≠ '/' := by
  rcases Nat.lt_or_ge n 16 with h | h
  · have hall : ∀ m ∈ List.range 16, Nat.digitChar m ≠ '/' := by decide
    exact hall n (List.mem_range.mpr h)
  · obtain ⟨k, rfl⟩ : ∃ k, n = k + 16 := ⟨n - 16, by omega⟩
    intro heq
    exact absurd ((show Nat.digitChar (k + 16) = '*' from rfl) ▸ heq) (by decide)

theorem toDigitsCore_ne_slash : ∀ (fuel n : Nat) (ds : List Char), (∀ c ∈ ds, c ≠ '/') →
    ∀ c ∈ Nat.toDigitsCore 10 fuel n ds, c ≠ '/' := by
  intro fuel
  induction fuel with
  | zero => intro n ds h c hc; exact h c (by simpa [Nat.toDigitsCore] using hc)
  | succ fuel ih =>
    intro n ds h c hc
    have hcons : ∀ x ∈ (Nat.digitChar (n % 10) :: ds), x ≠ '/' := by
      intro x hx
      rcases List.mem_cons.mp hx with h1 | h2
      · exact h1 ▸ digitChar_ne_slash (n % 10)
      · exact h x h2
    simp only [Nat.toDigitsCore] at hc
    by_cases hz : n / 10 = 0
    · rw [if_pos hz] at hc
      exact hcons c hc
    · rw [if_neg hz] at hc
      exact ih (n / 10) _ hcons c hc

theorem repr_no_slash (n : Nat) : '/' ∉ chars (Nat.repr n) := by
  intro h
  exact toDigitsCore_ne_slash (n + 1) n [] (by simp) '/'
    (by simpa [Nat.repr, Nat.toDigits, chars] using h) rfl

/-! ## Eviction name facts -/

theorem probeLoop_is_cand (free : String → Bool) (cand : Nat → String) :
    ∀ fuel i, ∃ m, probeLoop free cand fuel i = cand m := by
  intro fuel
  induction fuel with
  | zero => intro i; exact ⟨i, rfl⟩
  | succ fuel ih =>
    intro i
    by_cases h : free (cand i) = true
    · exact ⟨i, by simp [probeLoop, h]⟩
    · obtain ⟨m, hm⟩ := ih (i + 1)
      exact ⟨m, by simpa [probeLoop, h] using hm⟩

theorem no_slash_append {a b : String} (ha : '/' ∉ chars a) (hb : '/' ∉ chars b) :
    '/' ∉ chars (a ++ b) := by
  rw [chars_append]
  intro h
  rcases List.mem_append.mp h with h | h
  · exact ha h
  · exact hb h

theorem joinPath_prefixed_ne (orig n : String)
    (hform : ∃ pre, pre ≠ [] ∧ chars n = pre ++ chars ((fileNameOpt orig).getD ""))
    (hslash : '/' ∉ chars n) :
    ¬ joinPath (dirOf orig) n = orig := by
  intro he
  obtain ⟨pre, hpre, hn⟩ := hform
  have hne : chars n ≠ [] := by
    rw [hn]
    intro hh
    exact hpre (List.append_eq_nil.mp hh).1
  have hfn : fileNameOpt orig = some n := by
    rw [← he]
    exact fileNameOpt_joinPath _ n hne hslash
  rw [hfn, Option.getD_some] at hn
  have hlen := congrArg List.length hn
  rw [List.length_append] at hlen
  have h0 : pre.length = 0 := by omega
  exact hpre (List.length_eq_zero.mp h0)

theorem evictName_ne_orig (fs : Fs) (pidStr orig : String)
    (hpid : '/' ∉ chars pidStr) : ¬ evictName fs pidStr orig = orig := by
  have hbase : '/' ∉ chars ((fileNameOpt orig).getD "") := by
    cases hf : fileNameOpt orig with
    | none => simp [chars]
    | some b => simpa using fileNameOpt_no_slash orig b hf
  have hpreA : '/' ∉ chars ".saferm-evict-" := by decide
  by_cases hex : existsAt fs (evictCand0 pidStr orig) = true
  · rw [show evictName fs pidStr orig
        = probeLoop (fun c => !existsAt fs c) (evictCandN pidStr orig) (fs.length + 1) 1 from by
      simp [evictName, hex]]
    obtain ⟨m, hm⟩ := probeLoop_is_cand (fun c => !existsAt fs c)
      (evictCandN pidStr orig) (fs.length + 1) 1
    rw [hm]
    unfold evictCandN
    apply joinPath_prefixed_ne
    · refine ⟨chars (".saferm-evict-" ++ pidStr ++ "-" ++ Nat.repr m ++ "-"), ?_, ?_⟩
      · intro hh
        have := congrArg List.length hh
        rw [chars_append, List.length_append] at this
        simp [chars] at this
      · rw [← chars_append]
    · exact no_slash_append (no_slash_append (no_slash_append (no_slash_append
        (no_slash_append hpreA hpid) (by decide)) (repr_no_slash m)) (by decide)) hbase
  · rw [show evictName fs pidStr orig = evictCand0 pidStr orig from by
      simp [evictName, hex]]
    unfold evictCand0
    apply joinPath_prefixed_ne
    · refine ⟨chars (".saferm-evict-" ++ pidStr ++ "-"), ?_, ?_⟩
      · intro hh
        have := congrArg List.length hh
        rw [chars_append, List.length_append] at this
        simp [chars] at this
      · rw [← chars_append]
    · exact no_slash_append (no_slash_append
        (no_slash_append hpreA hpid) (by decide)) hbase

end SafeRm

namespace SafeRm

/-! ## Parsing and listing lemmas -/

theorem foldl_trashinfo_fst (ls : List (List Char)) :
    ∀ acc : Option String × Option Int,
      (ls.foldl trashinfoLineStep acc).1.isSome
        = (acc.1.isSome || ls.any (fun l => (dropPre (chars "Path=") l).isSome)) := by
  induction ls with
  | nil => intro acc; simp
  | cons l rest ih =>
    intro acc
    rw [List.foldl_cons, ih]
    rcases hl : dropPre (chars "Path=") l with _ | p
    · have hstep : (trashinfoLineStep acc l).1 = acc.1 := by
        rcases h2 : dropPre (chars "DeletionDate=") l with _ | d
        · simp [trashinfoLineStep, hl, h2]
        · rcases h3 : parseDate (ofChars d) with _ | ts
          · simp [trashinfoLineStep, hl, h2, h3]
          · simp [trashinfoLineStep, hl, h2, h3]
      simp [hstep, hl]
    · have hstep : (trashinfoLineStep acc l).1 = some (ofChars p) := by
        simp [trashinfoLineStep, hl]
      simp [hstep, hl]

theorem parseTrashinfo_isSome_iff (c : String) :
    (parseTrashinfo c).isSome
      ↔ ∃ line ∈ linesOf c, (dropPre (chars "Path=") line).isSome := by
  have h1 : (parseTrashinfo c).isSome
      = ((linesOf c).foldl trashinfoLineStep (none, none)).1.isSome := by
    unfold parseTrashinfo
    rcases h : (linesOf c).foldl trashinfoLineStep (none, none) with ⟨p, d⟩
    rcases p with _ | p <;> simp
  rw [h1, foldl_trashinfo_fst]
  simp [List.any_eq_true]

theorem mem_mlistGo_payload (files : List (String × Node)) (f : Option String) :
    ∀ (info : List (String × String)) (it : RestorableItem),
      it ∈ mlistGo files f info → (lookupA files it.id).isSome = true := by
  intro info
  induction info with
  | nil => intro it h; simp [mlistGo] at h
  | cons e rest ih =>
    intro it h
    rcases e with ⟨name, content⟩
    cases hp : (lookupA files name).isSome with
    | false =>
      simp only [mlistGo, hp, Bool.false_eq_true, if_false] at h
      exact ih it h
    | true =>
      simp only [mlistGo, hp, if_true] at h
      rcases hparse : parseTrashinfo content with _ | pd
      · simp only [hparse] at h
        exact ih it h
      · rcases pd with ⟨op, da⟩
        simp only [hparse] at h
        split at h
        · rcases List.mem_cons.mp h with h1 | h2
          · subst h1
            simpa using hp
          · exact ih it h2
        · exact ih it h

theorem mlistGo_skip_unparsable (files : List (String × Node)) (f : Option String)
    (name content : String) (info : List (String × String))
    (h : parseTrashinfo content = none) :
    mlistGo files f ((name, content) :: info) = mlistGo files f info := by
  cases hp : (lookupA files name).isSome with
  | false => simp [mlistGo, hp]
  | true => simp [mlistGo, hp, h]

theorem mem_mlistGo_filter_iff (files : List (String × Node)) (pat : String) :
    ∀ (info : List (String × String)) (it : RestorableItem),
      it ∈ mlistGo files (some pat) info
        ↔ (it ∈ mlistGo files none info
            ∧ (containsSub it.id pat || containsSub it.original_path pat) = true) := by
  intro info
  induction info with
  | nil => intro it; simp [mlistGo]
  | cons e rest ih =>
    intro it
    rcases e with ⟨name, content⟩
    cases hp : (lookupA files name).isSome with
    | false =>
      simp only [mlistGo, hp, Bool.false_eq_true, if_false]
      exact ih it
    | true =>
      rcases hparse : parseTrashinfo content with _ | pd
      · simp only [mlistGo, hp, if_true, hparse]
        exact ih it
      · rcases pd with ⟨op, da⟩
        simp only [mlistGo, hp, if_true, hparse, if_pos rfl]
        by_cases hkeep : (containsSub name pat || containsSub op pat) = true
        · rw [if_pos hkeep]
          constructor
          · intro h
            rcases List.mem_cons.mp h with h1 | h2
            · refine ⟨List.mem_cons.mpr (Or.inl h1), ?_⟩
              subst h1
              simpa using hkeep
            · obtain ⟨hm, hc⟩ := (ih it).mp h2
              exact ⟨List.mem_cons.mpr (Or.inr hm), hc⟩
          · intro ⟨hm, hc⟩
            rcases List.mem_cons.mp hm with h1 | h2
            · exact List.mem_cons.mpr (Or.inl h1)
            · exact List.mem_cons.mpr (Or.inr ((ih it).mpr ⟨h2, hc⟩))
        · rw [if_neg hkeep]
          constructor
          · intro h
            obtain ⟨hm, hc⟩ := (ih it).mp h
            exact ⟨List.mem_cons.mpr (Or.inr hm), hc⟩
          · intro ⟨hm, hc⟩
            rcases List.mem_cons.mp hm with h1 | h2
            · exfalso
              apply hkeep
              subst h1
              simpa using hc
            · exact (ih it).mpr ⟨h2, hc⟩
    
end SafeRm

namespace SafeRm

/-! ## Unique name lemmas -/

theorem uniqueName_of_free (files : List (String × Node)) (name : String)
    (h : (lookupA files name).isNone = true) : uniqueName files name = name := by
  simp [uniqueName, h]

theorem uniqueName_collision (files : List (String × Node)) (name : String)
    (h : (lookupA files name).isNone = false)
    (hex : ∃ j, 1 ≤ j ∧ j < files.length + 2
      ∧ (lookupA files (uniqCand (stemExt name).1 (stemExt name).2 j)).isNone = true) :
    ∃ m, 1 ≤ m
      ∧ (lookupA files (uniqCand (stemExt name).1 (stemExt name).2 m)).isNone = true
      ∧ uniqueName files name = uniqCand (stemExt name).1 (stemExt name).2 m
      ∧ ∀ k, 1 ≤ k → k < m
        → (lookupA files (uniqCand (stemExt name).1 (stemExt name).2 k)).isNone = false := by
  obtain ⟨j, hj1, hj2, hjf⟩ := hex
  obtain ⟨m, hm1, hmf, heq, hmin⟩ := probeLoop_spec
    (fun c => (lookupA files c).isNone) (uniqCand (stemExt name).1 (stemExt name).2)
    (files.length + 1) 1 ⟨j, hj1, by omega, hjf⟩
  refine ⟨m, hm1, hmf, ?_, ?_⟩
  · rw [uniqueName, if_neg (by simp [h])]
    exact heq
  · intro k hk1 hk2
    exact hmin k hk1 hk2

theorem uniqueName_free (files : List (String × Node)) (name : String)
    (hex : ∃ j, 1 ≤ j ∧ j < files.length + 2
      ∧ (lookupA files (uniqCand (stemExt name).1 (stemExt name).2 j)).isNone = true) :
    (lookupA files (uniqueName files name)).isNone = true := by
  cases h : (lookupA files name).isNone with
  | true => rw [uniqueName_of_free files name h]; exact h
  | false =>
    obtain ⟨m, _, hmf, heq, _⟩ := uniqueName_collision files name h hex
    rw [heq]
    exact hmf

/-! ## Claim theorems -/

/-- C1: for every non-symlink filesystem object, trash(p) with the Managed
backend followed by restore_to(id, p) — id being the stored name chosen by
trash — succeeds, recreates the very node (contents and directory
structure) at p, and afterwards list_restorable no longer returns an item
with that id. -/
theorem managed_trash_restore_roundtrip (s : MState) (p now : String) (n : Node)
    (hp : lookupA s.ext p = some n)
    (hns : ∀ t, ¬ n = Node.symlink t) :
    (mtrash noMFaults s p now).2 = none
    ∧ (mrestore noRFaults (mtrash noMFaults s p now).1
        (uniqueName s.files (fileNameD p)) p).2 = none
    ∧ lookupA (mrestore noRFaults (mtrash noMFaults s p now).1
        (uniqueName s.files (fileNameD p)) p).1.ext p = some n
    ∧ ∀ it ∈ mlist (mrestore noRFaults (mtrash noMFaults s p now).1
        (uniqueName s.files (fileNameD p)) p).1 none,
        ¬ it.id = uniqueName s.files (fileNameD p) := by
  have hsym : isSymlinkAt s.ext p = false := by
    unfold isSymlinkAt
    rw [hp]
    cases n with
    | file c => rfl
    | dir es => rfl
    | symlink t => exact absurd rfl (hns t)
  have hex : existsAt s.ext p = true := by simp [existsAt, hp]
  have h1 : mtrash noMFaults s p now
      = ({ ext := eraseA s.ext p
           files := insertA s.files (uniqueName s.files (fileNameD p)) n
           info := insertA s.info (uniqueName s.files (fileNameD p)) (mkTrashinfo p now) },
         none) := by
    simp [mtrash, hsym, canonicalizeAt, hex, hp, noMFaults]
  rw [h1]
  have hpl : lookupA (insertA s.files (uniqueName s.files (fileNameD p)) n)
      (uniqueName s.files (fileNameD p)) = some n := lookupA_insertA_self _ _ _
  have h2 : mrestore noRFaults
      ({ ext := eraseA s.ext p
         files := insertA s.files (uniqueName s.files (fileNameD p)) n
         info := insertA s.info (uniqueName s.files (fileNameD p)) (mkTrashinfo p now) } : MState)
      (uniqueName s.files (fileNameD p)) p
      = ({ ext := insertA (eraseA s.ext p) p n
           files := eraseA (insertA s.files (uniqueName s.files (fileNameD p)) n)
             (uniqueName s.files (fileNameD p))
           info := eraseA (insertA s.info (uniqueName s.files (fileNameD p))
             (mkTrashinfo p now)) (uniqueName s.files (fileNameD p)) },
         none) := by
    simp [mrestore, hpl, noRFaults]
  rw [h2]
  refine ⟨rfl, rfl, lookupA_insertA_self _ _ _, ?_⟩
  intro it hit hid
  have hpay := mem_mlistGo_payload _ none _ it hit
  rw [hid, eraseA_insertA_self, lookupA_eraseA_self] at hpay
  simp at hpay

/-- C2: the stored name chosen by the Managed backend is the original file
name when free in the payload store, and otherwise the first free candidate
with the integer suffix inserted before the extension, probed sequentially
from 1; trashing two files named dup.txt in sequence stores them as dup.txt
and dup.1.txt; and a trash() call never overwrites an existing trashed
payload. -/
theorem unique_name_collision_safety :
    (∀ (files : List (String × Node)) (name : String),
      (lookupA files name).isNone = true → uniqueName files name = name)
    ∧ (∀ (files : List (String × Node)) (name : String),
        (lookupA files name).isNone = false →
        (∃ j, 1 ≤ j ∧ j < files.length + 2
          ∧ (lookupA files (uniqCand (stemExt name).1 (stemExt name).2 j)).isNone = true) →
        ∃ m, 1 ≤ m
          ∧ (lookupA files (uniqCand (stemExt name).1 (stemExt name).2 m)).isNone = true
          ∧ uniqueName files name = uniqCand (stemExt name).1 (stemExt name).2 m
          ∧ ∀ k, 1 ≤ k → k < m
            → (lookupA files (uniqCand (stemExt name).1 (stemExt name).2 k)).isNone = false)
    ∧ (∀ (s : MState) (p now : String) (n : Node) (k : String) (v : Node),
        lookupA s.ext p = some n → (∀ t, ¬ n = Node.symlink t) →
        (∃ j, 1 ≤ j ∧ j < s.files.length + 2
          ∧ (lookupA s.files
              (uniqCand (stemExt (fileNameD p)).1 (stemExt (fileNameD p)).2 j)).isNone = true) →
        lookupA s.files k = some v →
        lookupA (mtrash noMFaults s p now).1.files k = some v)
    ∧ (lookupA (mtrash noMFaults
          (mtrash noMFaults
            ⟨[("/a/dup.txt", Node.file "first"), ("/b/dup.txt", Node.file "second")], [], []⟩
            "/a/dup.txt" "d1").1
          "/b/dup.txt" "d2").1.files "dup.txt" = some (Node.file "first")
        ∧ lookupA (mtrash noMFaults
            (mtrash noMFaults
              ⟨[("/a/dup.txt", Node.file "first"), ("/b/dup.txt", Node.file "second")], [], []⟩
              "/a/dup.txt" "d1").1
            "/b/dup.txt" "d2").1.files "dup.1.txt" = some (Node.file "second")) := by
  refine ⟨uniqueName_of_free, uniqueName_collision, ?_, rfl, rfl⟩
  intro s p now n k v hp hns hex hk
  have hsym : isSymlinkAt s.ext p = false := by
    unfold isSymlinkAt
    rw [hp]
    cases n with
    | file c => rfl
    | dir es => rfl
    | symlink t => exact absurd rfl (hns t)
  have hext : existsAt s.ext p = true := by simp [existsAt, hp]
  have h1 : (mtrash noMFaults s p now).1.files
      = insertA s.files (uniqueName s.files (fileNameD p)) n := by
    simp [mtrash, hsym, canonicalizeAt, hext, hp, noMFaults]
  rw [h1]
  have hfree := uniqueName_free s.files (fileNameD p) hex
  have hne : ¬ uniqueName s.files (fileNameD p) = k := by
    intro hh
    rw [hh, hk] at hfree
    simp at hfree
  rw [lookupA_insertA_ne _ _ _ _ hne]
  exact hk

end SafeRm

namespace SafeRm

/-- C4: the Managed backend's restore_to fails with NotFound when no
payload is stored under the id; when the payload exists but the rename
fails it fails with MoveFailed leaving the whole state (payload and
metadata) untouched; on success the payload lands at the destination, and
the metadata record is removed best-effort — a removal failure does not
make the operation an error. -/
theorem managed_restore_error_contract (flt : RFaults) (s : MState) (id dest : String) :
    (lookupA s.files id = none → mrestore flt s id dest = (s, some Err.notFound))
    ∧ (∀ pl, lookupA s.files id = some pl → flt.renameFails = true →
        mrestore flt s id dest = (s, some Err.moveFailed))
    ∧ (∀ pl, lookupA s.files id = some pl → flt.renameFails = false →
        (mrestore flt s id dest).2 = none
        ∧ (mrestore flt s id dest).1.ext = insertA s.ext dest pl
        ∧ (mrestore flt s id dest).1.files = eraseA s.files id
        ∧ (flt.infoRemoveFails = true → (mrestore flt s id dest).1.info = s.info)
        ∧ (flt.infoRemoveFails = false → (mrestore flt s id dest).1.info = eraseA s.info id)) := by
  refine ⟨?_, ?_, ?_⟩
  · intro h
    simp [mrestore, h]
  · intro pl h hf
    simp [mrestore, h, hf]
  · intro pl h hf
    cases hi : flt.infoRemoveFails <;> simp [mrestore, h, hf, hi]

/-- C5: in both backends, trashing a symbolic link removes only the link
itself — afterwards the link path no longer exists while the target binding
is untouched — and fails with IoError when the unlink fails, leaving
everything unchanged. -/
theorem symlink_trash_removes_link_only (s : MState) (o : OState) (p t now : String)
    (fid fname : String) (ots : Int) (b c1 c2 c3 : Bool)
    (hm : lookupA s.ext p = some (Node.symlink t))
    (ho : lookupA o.ext p = some (Node.symlink t))
    (hpt : ¬ p = t) :
    mtrash ⟨true, b⟩ s p now = (s, some Err.ioError)
    ∧ mtrash noMFaults s p now = ({ s with ext := eraseA s.ext p }, none)
    ∧ lookupA (mtrash noMFaults s p now).1.ext p = none
    ∧ lookupA (mtrash noMFaults s p now).1.ext t = lookupA s.ext t
    ∧ osTrash ⟨true, c1, c2, c3⟩ o p fid fname ots = (o, some Err.ioError)
    ∧ osTrash noOFaults o p fid fname ots = ({ o with ext := eraseA o.ext p }, none)
    ∧ lookupA (osTrash noOFaults o p fid fname ots).1.ext p = none
    ∧ lookupA (osTrash noOFaults o p fid fname ots).1.ext t = lookupA o.ext t := by
  have hsm : isSymlinkAt s.ext p = true := by simp [isSymlinkAt, hm]
  have hso : isSymlinkAt o.ext p = true := by simp [isSymlinkAt, ho]
  have hrm : removeFileAt s.ext p = some (eraseA s.ext p) := by simp [removeFileAt, hm]
  have hro : removeFileAt o.ext p = some (eraseA o.ext p) := by simp [removeFileAt, ho]
  refine ⟨?_, ?_, ?_, ?_, ?_, ?_, ?_, ?_⟩
  · simp [mtrash, hsm, hrm]
  · simp [mtrash, hsm, hrm, noMFaults]
  · simp [mtrash, hsm, hrm, noMFaults, lookupA_eraseA_self]
  · simp [mtrash, hsm, hrm, noMFaults, lookupA_eraseA_ne s.ext p t hpt]
  · simp [osTrash, hso, hro]
  · simp [osTrash, hso, hro, noOFaults]
  · simp [osTrash, hso, hro, noOFaults, lookupA_eraseA_self]
  · simp [osTrash, hso, hro, noOFaults, lookupA_eraseA_ne o.ext p t hpt]

/-- C6: the Managed backend's listing surfaces only items whose payload
still exists under the stored name; a record that fails to parse is skipped
without aborting the listing; and a record parses exactly when it has a
Path= line — so unknown or missing optional fields are tolerated and a
record missing Path is rejected (skipped). -/
theorem list_restorable_robustness (f : Option String) :
    (∀ (s : MState) (it : RestorableItem),
      it ∈ mlist s f → (lookupA s.files it.id).isSome = true)
    ∧ (∀ (e : Fs) (fi : List (String × Node)) (name content : String)
        (info : List (String × String)),
        parseTrashinfo content = none →
        mlist ⟨e, fi, (name, content) :: info⟩ f = mlist ⟨e, fi, info⟩ f)
    ∧ (∀ content : String,
        (parseTrashinfo content).isSome
          ↔ ∃ line ∈ linesOf content, (dropPre (chars "Path=") line).isSome) := by
  refine ⟨?_, ?_, parseTrashinfo_isSome_iff⟩
  · intro s it h
    exact mem_mlistGo_payload s.files f s.info it h
  · intro e fi name content info h
    exact mlistGo_skip_unparsable fi f name content info h

/-- C9: list_restorable with a filter pattern returns exactly the valid
items whose stored name or original path contains the pattern as a
substring; a pattern matching no item yields the empty list. -/
theorem list_restorable_filter_correct (s : MState) (pat : String) :
    (∀ it : RestorableItem,
      it ∈ mlist s (some pat)
        ↔ (it ∈ mlist s none
            ∧ (containsSub it.id pat || containsSub it.original_path pat) = true))
    ∧ ((∀ it ∈ mlist s none,
          (containsSub it.id pat || containsSub it.original_path pat) = false) →
        mlist s (some pat) = []) := by
  constructor
  · intro it
    exact mem_mlistGo_filter_iff s.files pat s.info it
  · intro h
    cases hl : mlist s (some pat) with
    | nil => rfl
    | cons a l =>
      have ha : a ∈ mlist s (some pat) := hl ▸ List.mem_cons_self a l
      obtain ⟨hm, hc⟩ := (mem_mlistGo_filter_iff s.files pat s.info a).mp ha
      rw [h a hm] at hc
      simp at hc

end SafeRm

namespace SafeRm

/-- C3: in the Platform backend's restore_to with a destination different
from the occupied original path, the occupant is first evicted aside, and
whenever any step after the eviction fails — the native restore (collision
or other error) or the move to the destination — the evicted file is
renamed back before the error is returned, so the original occupant is
still bound at its path. -/
theorem os_restore_eviction_rollback (flt : OFaults) (o : OState)
    (pidStr itemId dest : String) (item : TrashItem) (rest : List TrashItem) (occ : Node)
    (hfind : o.trashItems.filter (fun i => i.id = itemId) = item :: rest)
    (hne : ¬ dest = item.originalPath)
    (hocc : lookupA o.ext item.originalPath = some occ)
    (hpid : '/' ∉ chars pidStr)
    (hfail : flt.restoreCollision = true ∨ flt.restoreOther = true ∨ flt.moveFails = true) :
    (osRestoreTo flt o pidStr itemId dest).2.isSome = true
    ∧ lookupA (osRestoreTo flt o pidStr itemId dest).1.ext item.originalPath = some occ := by
  have hex : existsAt o.ext item.originalPath = true := by simp [existsAt, hocc]
  have htmp : ¬ evictName o.ext pidStr item.originalPath = item.originalPath :=
    evictName_ne_orig o.ext pidStr item.originalPath hpid
  have hren : renameFs o.ext item.originalPath (evictName o.ext pidStr item.originalPath)
      = insertA (eraseA o.ext item.originalPath)
        (evictName o.ext pidStr item.originalPath) occ := by
    simp [renameFs, hocc]
  have hlook1 : lookupA (renameFs o.ext item.originalPath
        (evictName o.ext pidStr item.originalPath))
      (evictName o.ext pidStr item.originalPath) = some occ := by
    rw [hren]
    exact lookupA_insertA_self _ _ _
  have hrollback : ∀ fs : Fs,
      lookupA fs (evictName o.ext pidStr item.originalPath) = some occ →
      lookupA (renameFs fs (evictName o.ext pidStr item.originalPath) item.originalPath)
        item.originalPath = some occ := by
    intro fs hfs
    simp [renameFs, hfs, lookupA_insertA_self]
  cases hc : flt.restoreCollision with
  | true =>
    have heq : osRestoreTo flt o pidStr itemId dest
        = (OState.mk (renameFs (renameFs o.ext item.originalPath
              (evictName o.ext pidStr item.originalPath))
              (evictName o.ext pidStr item.originalPath) item.originalPath) o.trashItems,
           some Err.restoreConflict) := by
      simp [osRestoreTo, hfind, hne, hex, hc]
    rw [heq]
    exact ⟨rfl, hrollback _ hlook1⟩
  | false =>
    cases ho2 : flt.restoreOther with
    | true =>
      have heq : osRestoreTo flt o pidStr itemId dest
          = (OState.mk (renameFs (renameFs o.ext item.originalPath
                (evictName o.ext pidStr item.originalPath))
                (evictName o.ext pidStr item.originalPath) item.originalPath) o.trashItems,
             some Err.backendFailed) := by
        simp [osRestoreTo, hfind, hne, hex, hc, ho2]
      rw [heq]
      exact ⟨rfl, hrollback _ hlook1⟩
    | false =>
      have hmv : flt.moveFails = true := by
        rcases hfail with h | h | h
        · rw [hc] at h
          exact absurd h (by simp)
        · rw [ho2] at h
          exact absurd h (by simp)
        · exact h
      have heq : osRestoreTo flt o pidStr itemId dest
          = (OState.mk (renameFs (insertA (renameFs o.ext item.originalPath
                (evictName o.ext pidStr item.originalPath)) item.originalPath item.node)
                (evictName o.ext pidStr item.originalPath) item.originalPath)
              (o.trashItems.filter (fun i => ¬ i.id = itemId)),
             some Err.moveFailed) := by
        simp [osRestoreTo, hfind, hne, hex, hc, ho2, hmv]
      rw [heq]
      refine ⟨rfl, hrollback _ ?_⟩
      rw [lookupA_insertA_ne _ _ _ _ (fun hh => htmp hh.symm)]
      exact hlook1

end SafeRm

namespace SafeRm

/-! ## Orchestrator lemmas -/

theorem generateRenamePath_spec (fs : Fs) (p : String)
    (hex : ∃ j, 1 ≤ j ∧ j < fs.length + 2 ∧ existsAt fs (renameCand p j) = false) :
    ∃ m, 1 ≤ m ∧ existsAt fs (renameCand p m) = false
      ∧ generateRenamePath fs p = renameCand p m
      ∧ ∀ k, 1 ≤ k → k < m → existsAt fs (renameCand p k) = true := by
  obtain ⟨j, hj1, hj2, hjf⟩ := hex
  obtain ⟨m, hm1, hmf, heq, hmin⟩ := probeLoop_spec
    (fun c => !existsAt fs c) (renameCand p) (fs.length + 1) 1
    ⟨j, hj1, by omega, by simp [hjf]⟩
  refine ⟨m, hm1, by simpa using hmf, heq, ?_⟩
  intro k hk1 hk2
  have := hmin k hk1 hk2
  simpa using this

theorem generateRenamePath_free (fs : Fs) (p : String)
    (hex : ∃ j, 1 ≤ j ∧ j < fs.length + 2 ∧ existsAt fs (renameCand p j) = false) :
    existsAt fs (generateRenamePath fs p) = false := by
  obtain ⟨m, _, hmf, heq, _⟩ := generateRenamePath_spec fs p hex
  rw [heq]
  exact hmf

theorem range_map_getD {α : Type} (l : List α) (d : α) :
    (List.range l.length).map (fun i => l.getD i d) = l := by
  induction l with
  | nil => simp
  | cons a rest ih =>
    rw [List.length_cons, List.range_succ_eq_map, List.map_cons, List.map_map]
    have h0 : (a :: rest).getD 0 d = a := rfl
    have h1 : ((fun i => (a :: rest).getD i d) ∘ Nat.succ) = fun i => rest.getD i d := by
      funext i
      rfl
    rw [h0, h1, ih]

end SafeRm

namespace SafeRm

/-- C7: when the restore destination is occupied and the run is
interactive, the orchestrator offers exactly three choices — overwrite,
skip, rename — with skip as the default selection (a prompter answering
with the default skips, leaving everything untouched); the rename choice
lands the restored payload at the first free generated sibling name
(.restored, .restored2, ...) and leaves the occupant untouched; the
overwrite choice decides by symlink-aware metadata, so a symlink occupant
is unlinked — its target directory untouched — before the payload lands at
the destination. -/
theorem restore_conflict_three_way (cli : Cli) (s : MState) (item : RestorableItem)
    (occ pl : Node)
    (hocc : lookupA s.ext item.original_path = some occ)
    (hpl : lookupA s.files item.id = some pl)
    (hren : ∃ j, 1 ≤ j ∧ j < s.ext.length + 2
      ∧ existsAt s.ext (renameCand item.original_path j) = false) :
    (∀ lbl, (restoreConflictOptions lbl).length = 3)
    ∧ (∀ (pr : Prompter) (ok : Bool), (∀ m os d, pr.select m os d = d) →
        processItem noRFaults cli pr true (s, ok) item = ((s, ok), none))
    ∧ (∀ (pr : Prompter) (ok : Bool), (∀ m os d, pr.select m os d = 1) →
        processItem noRFaults cli pr true (s, ok) item = ((s, ok), none))
    ∧ (∀ (pr : Prompter) (ok : Bool), (∀ m os d, pr.select m os d = 2) →
        processItem noRFaults cli pr true (s, ok) item
          = ((MState.mk (insertA s.ext (generateRenamePath s.ext item.original_path) pl)
              (eraseA s.files item.id) (eraseA s.info item.id), ok), none)
        ∧ lookupA (insertA s.ext (generateRenamePath s.ext item.original_path) pl)
            item.original_path = some occ)
    ∧ (∃ m, 1 ≤ m ∧ existsAt s.ext (renameCand item.original_path m) = false
        ∧ generateRenamePath s.ext item.original_path = renameCand item.original_path m
        ∧ ∀ k, 1 ≤ k → k < m → existsAt s.ext (renameCand item.original_path k) = true)
    ∧ (∀ (pr : Prompter) (ok : Bool) (t : String) (des : List (String × Node)),
        occ = Node.symlink t → ¬ t = item.original_path →
        lookupA s.ext t = some (Node.dir des) → (∀ m os d, pr.select m os d = 0) →
        processItem noRFaults cli pr true (s, ok) item
          = ((MState.mk (insertA (eraseA s.ext item.original_path) item.original_path pl)
              (eraseA s.files item.id) (eraseA s.info item.id), ok), none)
        ∧ lookupA (insertA (eraseA s.ext item.original_path) item.original_path pl) t
            = some (Node.dir des)) := by
  have hexi : existsAt s.ext item.original_path = true := by simp [existsAt, hocc]
  refine ⟨fun lbl => rfl, ?_, ?_, ?_, generateRenamePath_spec s.ext item.original_path hren, ?_⟩
  · intro pr ok hsel
    simp [processItem, hexi, hsel]
  · intro pr ok hsel
    simp [processItem, hexi, hsel]
  · intro pr ok hsel
    have hfree := generateRenamePath_free s.ext item.original_path hren
    have hrdne : ¬ generateRenamePath s.ext item.original_path = item.original_path := by
      intro hh
      rw [hh, hexi] at hfree
      exact absurd hfree (by simp)
    constructor
    · simp [processItem, hexi, hsel, restoreStep, mrestore, hpl, noRFaults]
    · rw [lookupA_insertA_ne _ _ _ _ hrdne]
      exact hocc
  · intro pr ok t des hsym hnt htgt hsel
    have hocc' : lookupA s.ext item.original_path = some (Node.symlink t) := hsym ▸ hocc
    have hmeta : symlinkMetaIsDir s.ext item.original_path = some false := by
      simp [symlinkMetaIsDir, hocc']
    have hrm : removeFileAt s.ext item.original_path
        = some (eraseA s.ext item.original_path) := by
      simp [removeFileAt, hocc']
    constructor
    · simp [processItem, hexi, hsel, hmeta, hrm, restoreStep, mrestore, hpl, noRFaults]
    · rw [lookupA_insertA_ne _ _ _ _ (fun hh => hnt hh.symm),
        lookupA_eraseA_ne _ _ _ (fun hh => hnt hh.symm)]
      exact htgt

end SafeRm

namespace SafeRm

/-- C8: the restore orchestrator succeeds immediately (reporting nothing to
restore) when the listing is empty; refuses with the non-interactive error
when it cannot prompt and force is not given; with force in a
non-interactive run it selects all filtered items; and a selected item
whose destination already exists is then skipped — state unchanged, no
error, processing continues. -/
theorem restore_non_interactive_contract (rflt : RFaults) (cli : Cli) (pr : Prompter)
    (s : MState) (htargets : cli.targets.length ≤ 1) :
    (mlist s cli.targets.head? = [] →
      ∀ isTty, runRestore rflt cli pr isTty s = (s, Except.ok true))
    ∧ (¬ mlist s cli.targets.head? = [] → cli.force = false →
        runRestore rflt cli pr false s = (s, Except.error Err.nonInteractive))
    ∧ (cli.force = true →
        runRestore rflt cli pr false s
          = processItems rflt cli pr false (mlist s cli.targets.head?) s true)
    ∧ (∀ (s' : MState) (ok : Bool) (item : RestorableItem), cli.force = true →
        existsAt s'.ext item.original_path = true →
        processItem rflt cli pr false (s', ok) item = ((s', ok), none)) := by
  have hlen : ¬ 1 < cli.targets.length := by omega
  refine ⟨?_, ?_, ?_, ?_⟩
  · intro hempty isTty
    simp [runRestore, hlen, hempty]
  · intro hne hforce
    have hnem : (mlist s cli.targets.head?).isEmpty = false := by
      cases h : mlist s cli.targets.head? with
      | nil => exact absurd h hne
      | cons a l => rfl
    simp [runRestore, hlen, hnem, hforce]
  · intro hforce
    cases h : mlist s cli.targets.head? with
    | nil => simp [runRestore, hlen, h, processItems]
    | cons a l =>
      have hnem : (mlist s cli.targets.head?).isEmpty = false := by rw [h]; rfl
      have hmap : (List.range (mlist s cli.targets.head?).length).map
          (fun i => (mlist s cli.targets.head?).getD i dummyItem)
          = mlist s cli.targets.head? := range_map_getD _ _
      simp only [runRestore, if_neg hlen, hnem, Bool.false_eq_true, if_false,
        hforce, if_true, hmap]
      rw [h]
  · intro s' ok item hforce hexi
    simp [processItem, hexi, hforce]

/-- C10: in the delete flow with a TTY on stdin, the target is confirmed
through the prompter before the backend trash is invoked, whatever the
force flag says; a declined confirmation leaves the target untrashed and
counts as success, while an accepted one hands the target to trash. -/
theorem delete_flow_confirms_on_tty (mflt : MFaults) (cli : Cli) (pr : Prompter)
    (s : MState) (target now : String) (n : Node)
    (hex : lookupA s.ext target = some n)
    (hnd : ∀ es, ¬ n = Node.dir es) :
    (pr.confirm ("confirm_trash:" ++ target) = false →
      processTarget mflt cli pr true s target now = (s, none))
    ∧ (pr.confirm ("confirm_trash:" ++ target) = true →
      processTarget mflt cli pr true s target now = mtrash mflt s target now) := by
  cases n with
  | dir es => exact absurd rfl (hnd es)
  | file c =>
    constructor
    · intro hc
      simp [processTarget, existsAt, hex, hc]
    · intro hc
      simp [processTarget, existsAt, hex, hc]
  | symlink t =>
    constructor
    · intro hc
      simp [processTarget, existsAt, hex, hc]
    · intro hc
      simp [processTarget, existsAt, hex, hc]

end SafeRm

namespace SafeRm

/-! ## Witnesses: concrete instantiations of the claim theorems -/

theorem managed_trash_restore_roundtrip_witness :
    lookupA ([("/a/x.txt", Node.file "hi")] : Fs) "/a/x.txt" = some (Node.file "hi")
    ∧ lookupA (mrestore noRFaults
        (mtrash noMFaults ⟨[("/a/x.txt", Node.file "hi")], [], []⟩ "/a/x.txt" "d").1
        (uniqueName ([] : List (String × Node)) (fileNameD "/a/x.txt")) "/a/x.txt").1.ext
        "/a/x.txt" = some (Node.file "hi") :=
  ⟨rfl, (managed_trash_restore_roundtrip ⟨[("/a/x.txt", Node.file "hi")], [], []⟩
    "/a/x.txt" "d" (Node.file "hi") rfl (fun t h => Node.noConfusion h)).2.2.1⟩

theorem unique_name_collision_safety_witness :
    lookupA ([("/b/dup.txt", Node.file "second")] : Fs) "/b/dup.txt"
        = some (Node.file "second")
    ∧ (lookupA [("dup.txt", Node.file "first")]
        (uniqCand (stemExt (fileNameD "/b/dup.txt")).1
          (stemExt (fileNameD "/b/dup.txt")).2 1)).isNone = true
    ∧ lookupA (mtrash noMFaults
        ⟨[("/b/dup.txt", Node.file "second")], [("dup.txt", Node.file "first")], []⟩
        "/b/dup.txt" "d").1.files "dup.txt" = some (Node.file "first") :=
  ⟨rfl, by decide,
    (unique_name_collision_safety).2.2.1
      ⟨[("/b/dup.txt", Node.file "second")], [("dup.txt", Node.file "first")], []⟩
      "/b/dup.txt" "d" (Node.file "second") "dup.txt" (Node.file "first")
      rfl (fun t h => Node.noConfusion h)
      ⟨1, le_refl 1, by decide, by decide⟩ rfl⟩

theorem os_restore_eviction_rollback_witness :
    (¬ ("/b/g.txt" : String) = "/a/f.txt")
    ∧ (osRestoreTo ⟨false, true, false, false⟩
        ⟨[("/a/f.txt", Node.file "old")],
          [⟨"id1", "f.txt", "/a/f.txt", 0, Node.file "new"⟩]⟩
        "42" "id1" "/b/g.txt").2.isSome = true
    ∧ lookupA (osRestoreTo ⟨false, true, false, false⟩
        ⟨[("/a/f.txt", Node.file "old")],
          [⟨"id1", "f.txt", "/a/f.txt", 0, Node.file "new"⟩]⟩
        "42" "id1" "/b/g.txt").1.ext "/a/f.txt" = some (Node.file "old") := by
  have h := os_restore_eviction_rollback ⟨false, true, false, false⟩
    ⟨[("/a/f.txt", Node.file "old")], [⟨"id1", "f.txt", "/a/f.txt", 0, Node.file "new"⟩]⟩
    "42" "id1" "/b/g.txt" ⟨"id1", "f.txt", "/a/f.txt", 0, Node.file "new"⟩ [] (Node.file "old")
    rfl (by decide) rfl (by decide) (Or.inl rfl)
  exact ⟨by decide, h.1, h.2⟩

theorem managed_restore_error_contract_witness :
    lookupA ([("x", Node.file "p")] : List (String × Node)) "x" = some (Node.file "p")
    ∧ mrestore ⟨true, false⟩ ⟨[], [("x", Node.file "p")], [("x", "c")]⟩ "x" "/d"
        = (⟨[], [("x", Node.file "p")], [("x", "c")]⟩, some Err.moveFailed) :=
  ⟨rfl, (managed_restore_error_contract ⟨true, false⟩
    ⟨[], [("x", Node.file "p")], [("x", "c")]⟩ "x" "/d").2.1 (Node.file "p") rfl rfl⟩

theorem symlink_trash_removes_link_only_witness :
    lookupA ([("/l", Node.symlink "/t"), ("/t", Node.file "data")] : Fs) "/l"
        = some (Node.symlink "/t")
    ∧ lookupA (mtrash noMFaults
        ⟨[("/l", Node.symlink "/t"), ("/t", Node.file "data")], [], []⟩ "/l" "d").1.ext "/l"
        = none
    ∧ lookupA (mtrash noMFaults
        ⟨[("/l", Node.symlink "/t"), ("/t", Node.file "data")], [], []⟩ "/l" "d").1.ext "/t"
        = lookupA ([("/l", Node.symlink "/t"), ("/t", Node.file "data")] : Fs) "/t" := by
  have h := symlink_trash_removes_link_only
    ⟨[("/l", Node.symlink "/t"), ("/t", Node.file "data")], [], []⟩
    ⟨[("/l", Node.symlink "/t"), ("/t", Node.file "data")], []⟩
    "/l" "/t" "d" "fid" "fn" 0 false false false false rfl rfl (by decide)
  exact ⟨rfl, h.2.2.1, h.2.2.2.1⟩

theorem list_restorable_robustness_witness :
    parseTrashinfo "[Trash Info]\nDeletionDate=2024-01-02T03:04:05\n" = none
    ∧ mlist ⟨[], [("x", Node.file "p")],
        [("x", "[Trash Info]\nDeletionDate=2024-01-02T03:04:05\n")]⟩ none
        = mlist ⟨[], [("x", Node.file "p")], []⟩ none :=
  ⟨rfl, (list_restorable_robustness none).2.1 [] [("x", Node.file "p")] "x"
    "[Trash Info]\nDeletionDate=2024-01-02T03:04:05\n" [] rfl⟩

theorem restore_conflict_three_way_witness :
    lookupA ([("/a/f.txt", Node.file "occ")] : Fs) "/a/f.txt" = some (Node.file "occ")
    ∧ lookupA ([("stored", Node.file "pl")] : List (String × Node)) "stored"
        = some (Node.file "pl")
    ∧ processItem noRFaults ⟨[], false, false, false, false, false, false, false⟩
        ⟨fun _ => true, fun _ _ d => d, fun _ _ _ => []⟩ true
        (⟨[("/a/f.txt", Node.file "occ")], [("stored", Node.file "pl")], [("stored", "c")]⟩,
          true)
        ⟨"stored", "/a/f.txt", "f.txt", none⟩
        = ((⟨[("/a/f.txt", Node.file "occ")], [("stored", Node.file "pl")],
            [("stored", "c")]⟩, true), none) :=
  ⟨rfl, rfl, (restore_conflict_three_way
    ⟨[], false, false, false, false, false, false, false⟩
    ⟨[("/a/f.txt", Node.file "occ")], [("stored", Node.file "pl")], [("stored", "c")]⟩
    ⟨"stored", "/a/f.txt", "f.txt", none⟩ (Node.file "occ") (Node.file "pl")
    rfl rfl ⟨1, le_refl 1, by decide, by decide⟩).2.1
    ⟨fun _ => true, fun _ _ d => d, fun _ _ _ => []⟩ true (fun m os d => rfl)⟩

theorem restore_non_interactive_contract_witness :
    mlist ⟨[], [], []⟩ (List.head? ([] : List String)) = []
    ∧ runRestore noRFaults ⟨[], false, true, false, false, false, false, false⟩
        ⟨fun _ => true, fun _ _ d => d, fun _ _ _ => []⟩ false ⟨[], [], []⟩
        = (⟨[], [], []⟩, Except.ok true) :=
  ⟨rfl, (restore_non_interactive_contract noRFaults
    ⟨[], false, true, false, false, false, false, false⟩
    ⟨fun _ => true, fun _ _ d => d, fun _ _ _ => []⟩ ⟨[], [], []⟩ (by decide)).1 rfl false⟩

theorem list_restorable_filter_correct_witness :
    (∀ it ∈ mlist ⟨[], [("alpha.txt", Node.file "a"), ("beta.txt", Node.file "b")],
        [("alpha.txt", "[Trash Info]\nPath=/s/alpha.txt\n"),
          ("beta.txt", "[Trash Info]\nPath=/s/beta.txt\n")]⟩ none,
      (containsSub it.id "nonexistent_xyz"
        || containsSub it.original_path "nonexistent_xyz") = false)
    ∧ mlist ⟨[], [("alpha.txt", Node.file "a"), ("beta.txt", Node.file "b")],
        [("alpha.txt", "[Trash Info]\nPath=/s/alpha.txt\n"),
          ("beta.txt", "[Trash Info]\nPath=/s/beta.txt\n")]⟩ (some "nonexistent_xyz") = [] :=
  ⟨by decide, (list_restorable_filter_correct
    ⟨[], [("alpha.txt", Node.file "a"), ("beta.txt", Node.file "b")],
      [("alpha.txt", "[Trash Info]\nPath=/s/alpha.txt\n"),
        ("beta.txt", "[Trash Info]\nPath=/s/beta.txt\n")]⟩ "nonexistent_xyz").2 (by decide)⟩

theorem delete_flow_confirms_on_tty_witness :
    lookupA ([("/f.txt", Node.file "x")] : Fs) "/f.txt" = some (Node.file "x")
    ∧ processTarget noMFaults ⟨["/f.txt"], false, true, false, false, false, false, false⟩
        ⟨fun _ => false, fun _ _ d => d, fun _ _ _ => []⟩ true
        ⟨[("/f.txt", Node.file "x")], [], []⟩ "/f.txt" "d"
        = (⟨[("/f.txt", Node.file "x")], [], []⟩, none) :=
  ⟨rfl, (delete_flow_confirms_on_tty noMFaults
    ⟨["/f.txt"], false, true, false, false, false, false, false⟩
    ⟨fun _ => false, fun _ _ d => d, fun _ _ _ => []⟩
    ⟨[("/f.txt", Node.file "x")], [], []⟩ "/f.txt" "d" (Node.file "x") rfl
    (fun es h => Node.noConfusion h)).1 rfl⟩

end SafeRm
